import Mathlib

/-!
Verification of the iCLIP pipeline (pipeline_iCLIP.py) against its
natural-language specification of the underlying workflow engine.

The pipeline file itself only declares tasks (ruffus decorators, CGAT
`P.run` calls); the scheduling/freshness/checkpoint engine lives in the
external `ruffus` / `CGATPipelines` libraries that the file imports.
Where a property is decided by that engine, the relevant component is
modelled from the spec (marked `Modelled from the spec:`); where it is
decided by code in the pipeline file itself (`mergeBamsByRep`,
`run_mapping`, `calculate_base_level_reproducibility`), the code is
embedded directly.

Timestamps are modelled as `Nat`, file contents as `List Nat` (bytes),
the filesystem as a function from path to `Option` of its content or
modification time (`none` = absent).
-/

namespace WorkflowEngine

/-! ## Model definitions -/

/-- Lifecycle states of a WorkItem: pending, stale, running, done, failed. -/
inductive LState where
  | pending
  | stale
  | running
  | done
  | failed
deriving DecidableEq

/-- A materialized WorkItem: concrete input paths and output paths. -/
structure WorkItem where
  inputs : List String
  outputs : List String

/-- Modelled from the spec: the timestamp comparison used by the
FreshnessOracle.  An output is out of date w.r.t. an input when both
exist and the output modification time is strictly older (smaller).
A missing timestamp on either side never triggers this comparison. -/
def olderThan : Option Nat → Option Nat → Bool
  | some tOut, some tIn => decide (tOut < tIn)
  | some _, none => false
  | none, _ => false

/-- Modelled from the spec: an upstream WorkItem blocks freshness when it
is itself stale or running. -/
def badUpstream (s : LState) : Bool :=
  s == LState.stale || s == LState.running

/-- Modelled from the spec: `FreshnessOracle.isStale` (the oracle lives in
the external engine libraries, not under the pipeline file).  A WorkItem
is stale iff some declared output is absent, or some declared output's
modification time is strictly older than some resolved input's, or some
upstream WorkItem is stale/running.  `fs` maps a path to its modification
time (`none` = absent); `upstream` carries the lifecycle states of the
upstream WorkItems the item depends on. -/
def isStale (fs : String → Option Nat) (upstream : List LState) (w : WorkItem) : Bool :=
  w.outputs.any (fun o => (fs o).isNone)
  || w.outputs.any (fun o => w.inputs.any (fun i => olderThan (fs o) (fs i)))
  || upstream.any badUpstream

/-- A Python runtime value, as far as the condition on line 328 needs:
either a string or a list of strings. -/
inductive PyVal where
  | pstr : String → PyVal
  | plist : List String → PyVal
deriving DecidableEq

/-- Python `==` on these values: values of different types (a list and a
string) are never equal; same-type values compare structurally. -/
def pyEq : PyVal → PyVal → Bool
  | PyVal.pstr a, PyVal.pstr b => a == b
  | PyVal.plist a, PyVal.plist b => a == b
  | _, _ => false

/-- The observable dispatch outcome of `run_mapping`. -/
inductive MapAction where
  | bowtieStatement
  | starStatement
  | valueError (mapper : String)
deriving DecidableEq

/-- Embedding of `run_mapping`'s mapper dispatch (src/pipeline_iCLIP.py:315-340).
The first branch tests `PARAMS["mapper"] == "bowtie"`.  The second branch is
the Python line `elif ["mapper"] == "star":`, which compares the list
literal `["mapper"]` with the string `"star"`.  Otherwise
`ValueError("Mapper ... not implemented")` is raised. -/
def run_mapping (mapper : String) : MapAction :=
  if mapper == "bowtie" then MapAction.bowtieStatement
  else if pyEq (PyVal.plist ["mapper"]) (PyVal.pstr "star") then MapAction.starStatement
  else MapAction.valueError mapper

/-- Does the list of characters start with '1', '2' or '3'?  (The character
class `[123]` of the regular expression `R[123]`.) -/
def nextIs123 : List Char → Bool
  | d :: _ => d == '1' || d == '2' || d == '3'
  | [] => false

/-- `re.search("R[123]", s)` viewed as a Boolean: does `s` contain an 'R'
immediately followed by '1', '2' or '3'? -/
def hasR123 : List Char → Bool
  | [] => false
  | c :: rest => (c == 'R' && nextIs123 rest) || hasR123 rest

/-- Embedding of the list comprehension on src/pipeline_iCLIP.py:699:
`[infile for infile in infiles if re.search("R[123]", infile)]` — the
input paths actually handed to calculateiCLIPReproducibility.py. -/
def reproInputs (infiles : List (List Char)) : List (List Char) :=
  infiles.filter (fun f => hasR123 f)

/-- An observable effect of `mergeBamsByRep`: a byte-level file clone or an
external shell command. -/
inductive MergeEffect where
  | clone (src dst : String)
  | shell (cmd : String)
deriving DecidableEq

/-- Embedding of `mergeBamsByRep` (src/pipeline_iCLIP.py:465-476): the merge
statement is built, but when `len(infiles) == 1` the code calls
`IOTools.cloneFile` on the input and on its `.bai` index and never runs the
statement; otherwise `P.run()` executes the merge and index commands. -/
def mergeBamsByRep (infiles : List String) (outfile : String) : List MergeEffect :=
  if infiles.length == 1 then
    [MergeEffect.clone (infiles.headD "") outfile,
     MergeEffect.clone (infiles.headD "" ++ ".bai") (outfile ++ ".bai")]
  else
    [MergeEffect.shell ("samtools merge -f " ++ outfile ++ " " ++ String.intercalate " " infiles),
     MergeEffect.shell ("samtools index " ++ outfile)]

/-- Modelled from the spec: `IOTools.cloneFile` (not under src) produces a
byte-identical copy of the source at the destination; a shell command's
effect on the filesystem is an arbitrary `shellSem`.  File contents are
byte lists. -/
def applyEffect (shellSem : String → (String → Option (List Nat)) → (String → Option (List Nat)))
    (fs : String → Option (List Nat)) : MergeEffect → (String → Option (List Nat))
  | MergeEffect.clone src dst => fun p => if p = dst then fs src else fs p
  | MergeEffect.shell cmd => shellSem cmd fs

/-- Run a list of effects left to right. -/
def applyEffects
    (shellSem : String → (String → Option (List Nat)) → (String → Option (List Nat)))
    (fs : String → Option (List Nat)) (effs : List MergeEffect) : String → Option (List Nat) :=
  effs.foldl (applyEffect shellSem) fs

/-- A piece of a command-step template: literal text, or a parameter token
`%(name)s` carrying the name. -/
inductive TItem where
  | lit : String → TItem
  | tok : String → TItem
deriving DecidableEq

/-- Modelled from the spec: token lookup order is WorkItem-captured fields
first, then the active configuration. -/
def lookupTok (fields config : String → Option String) (t : String) : Option String :=
  match fields t with
  | some v => some v
  | none => config t

/-- Modelled from the spec: `ParameterResolver.resolve` (the resolver is
`P.run`'s interpolation in the external CGATPipelines library, not under
src).  Every token is replaced by its resolved value; a token resolving
neither in the captured fields nor in the configuration fails with
`UnresolvedParameterError` naming that token. -/
def resolve (fields config : String → Option String) : List TItem → Except String String
  | [] => Except.ok ""
  | TItem.lit s :: rest => (resolve fields config rest).map (fun r => s ++ r)
  | TItem.tok t :: rest =>
    match lookupTok fields config t with
    | some v => (resolve fields config rest).map (fun r => v ++ r)
    | none => Except.error t

/-- The token names occurring in a template. -/
def tokensOf : List TItem → List String
  | [] => []
  | TItem.lit _ :: rest => tokensOf rest
  | TItem.tok t :: rest => t :: tokensOf rest

/-- The rendering of a template under a total substitution `val`. -/
def renderWith (val : String → String) : List TItem → String
  | [] => ""
  | TItem.lit s :: rest => s ++ renderWith val rest
  | TItem.tok t :: rest => val t ++ renderWith val rest

/-- Modelled from the spec: JobRunner spawns a subprocess for a step only
after `resolve` succeeds; the first component lists the commands actually
handed to a shell. -/
def runStep (fields config : String → Option String) (tpl : List TItem) :
    List String × Except String String :=
  match resolve fields config tpl with
  | Except.ok s => ([s], Except.ok s)
  | Except.error t => ([], Except.error t)

/-- An observable JobRunner event: running step `i`, or recording step `i`
complete in the CheckpointLedger. -/
inductive JEvent where
  | runStep (i : Nat)
  | ledgerWrite (i : Nat)
deriving DecidableEq

/-- Modelled from the spec: JobRunner executing the remaining `m` ordered
steps of a WorkItem whose CheckpointLedger records every step up to `k` as
complete (steps are numbered from 1; the next step to run is `k+1`).
`succ i` is the exit status of step `i` (`true` = exit 0).  Returns the
event trace, the final ledger value, and overall success.  After a step
succeeds its ledger record is written before the next step starts; a
failing step ends execution without advancing the ledger. -/
def runSteps (succ : Nat → Bool) (k : Nat) : Nat → List JEvent × Nat × Bool
  | 0 => ([], k, true)
  | m + 1 =>
    if succ (k + 1) then
      let rest := runSteps succ (k + 1) m
      (JEvent.runStep (k + 1) :: JEvent.ledgerWrite (k + 1) :: rest.1, rest.2)
    else
      ([JEvent.runStep (k + 1)], k, false)

/-- Modelled from the spec: re-execution of a WorkItem with `n` ordered
steps whose CheckpointLedger records steps `1..k` complete: execution
resumes at step `k+1`. -/
def runJob (succ : Nat → Bool) (n k : Nat) : List JEvent × Nat × Bool :=
  runSteps succ k (n - k)

/-- The step indices actually executed in a trace, in order. -/
def stepsRun (t : List JEvent) : List Nat :=
  t.filterMap (fun e =>
    match e with
    | JEvent.runStep i => some i
    | JEvent.ledgerWrite _ => none)

/-- A schedulable WorkItem as the dispatcher sees it: an identity and an
optional SerializationGroup name (`@jobs_limit(1, "db")` in
src/pipeline_iCLIP.py:188 declares the group "db" on the database-loading
tasks; its enforcement lives in the external engine). -/
structure SWorkItem where
  wid : Nat
  group : Option String
deriving DecidableEq

/-- Modelled from the spec: the dispatcher may start `w` only when a slot is
free under the global concurrency `limit` and, if `w` names a
SerializationGroup, no currently running WorkItem names the same group. -/
def canStart (limit : Nat) (running : List SWorkItem) (w : SWorkItem) : Bool :=
  decide (running.length < limit) &&
    match w.group with
    | none => true
    | some g => running.all (fun v => decide (v.group ≠ some g))

/-- Modelled from the spec: one scheduler transition — start a startable
WorkItem, or finish a running one. -/
inductive SchedStep (limit : Nat) : List SWorkItem → List SWorkItem → Prop where
  | start (w : SWorkItem) (running : List SWorkItem) :
      canStart limit running w = true → SchedStep limit running (w :: running)
  | finish (w : SWorkItem) (r1 r2 : List SWorkItem) :
      SchedStep limit (r1 ++ w :: r2) (r1 ++ r2)

/-- Scheduler states (running sets) reachable from the idle scheduler. -/
inductive SchedReach (limit : Nat) : List SWorkItem → Prop where
  | idle : SchedReach limit []
  | step (s t : List SWorkItem) : SchedReach limit s → SchedStep limit s t →
      SchedReach limit t

/-- Two WorkItems name the same SerializationGroup. -/
def sharesGroup (v w : SWorkItem) : Prop :=
  ∃ g, v.group = some g ∧ w.group = some g

/-- Modelled from the spec: the failure status of WorkItem `j` in a
topologically numbered graph, computed with a structural fuel (any fuel
`> j` gives the true status when dependencies strictly decrease).
`deps j` lists the items `j` directly depends on; `exec j` is whether `j`'s
own command succeeds.  An item is failed iff some item it depends on is
failed (in which case it is never executed) or its own execution fails. -/
def failedF (deps : Nat → List Nat) (exec : Nat → Bool) : Nat → Nat → Bool
  | 0, _ => false
  | fuel + 1, j => (deps j).any (fun d => failedF deps exec fuel d) || !exec j

/-- The final failure status of WorkItem `j`. -/
def failedItem (deps : Nat → List Nat) (exec : Nat → Bool) (j : Nat) : Bool :=
  failedF deps exec (j + 1) j

/-- Modelled from the spec: WorkItem `j` is submitted for execution iff no
item it directly depends on has failed. -/
def executedItem (deps : Nat → List Nat) (exec : Nat → Bool) (j : Nat) : Bool :=
  !(deps j).any (fun d => failedItem deps exec d)

/-- Transitive dependence: `Reaches deps i j` holds when `j` transitively
depends on `i`. -/
inductive Reaches (deps : Nat → List Nat) : Nat → Nat → Prop where
  | dep {d j : Nat} : d ∈ deps j → Reaches deps d j
  | trans {i d j : Nat} : Reaches deps i d → d ∈ deps j → Reaches deps i j

/-- The concrete sibling graph of the spec example: A = 0, B = 1, C = 2,
with B and C both depending on A. -/
def c5deps : Nat → List Nat :=
  fun j => if j = 1 then [0] else if j = 2 then [0] else []

/-- Execution outcomes for the example: the WorkItem on B's branch fails,
all others succeed. -/
def c5exec : Nat → Bool :=
  fun j => decide (j ≠ 1)

/-- A ruffus-style output glob `pre*suf` (e.g. `demux_fq/*_track.fastq.gz`
on src/pipeline_iCLIP.py:254). -/
structure GlobPat where
  gpre : List Char
  gsuf : List Char

/-- Boolean prefix test on character lists. -/
def isPre : List Char → List Char → Bool
  | [], _ => true
  | _ :: _, [] => false
  | a :: as, b :: bs => (a == b) && isPre as bs

/-- Does the path match `pre*suf` (the star standing for any, possibly
empty, stretch of characters)? -/
def globMatch (pat : GlobPat) (s : List Char) : Bool :=
  decide (pat.gpre.length + pat.gsuf.length ≤ s.length) &&
    isPre pat.gpre s && isPre pat.gsuf.reverse s.reverse

/-- Modelled from the spec: phase-two materialization of a subdivide task —
after the predecessor WorkItem completes, the declared output pattern is
re-globbed over the produced files and one concrete downstream WorkItem is
created per matching file.  `mkIn f` / `mkOut f` are the downstream task's
pattern-derived input/output paths for produced file `f`. -/
def materializeSubdivide (pat : GlobPat) (produced : List (List Char))
    (mkIn mkOut : List Char → String) : List WorkItem :=
  (produced.filter (fun f => globMatch pat f)).map
    (fun f => { inputs := [mkIn f], outputs := [mkOut f] })

/-- The engine state: the filesystem (path to modification time), a clock
bounding every timestamp on disk, and the count of WorkItems executed. -/
structure EngState where
  fs : String → Option Nat
  clock : Nat
  execs : Nat

/-- Modelled from the spec: executing a WorkItem (re)writes each declared
output, giving it modification time `t`. -/
def writeOuts (fs : String → Option Nat) (outs : List String) (t : Nat) :
    String → Option Nat :=
  fun p => if p ∈ outs then some t else fs p

/-- Modelled from the spec: the scheduler's handling of one WorkItem at its
graph level (its upstream items have already completed by the level
barrier, so only the filesystem decides staleness): a stale item is
executed — its outputs gain a timestamp newer than everything on disk — and
counted; a fresh item is skipped. -/
def stepItem (st : EngState) (w : WorkItem) : EngState :=
  if isStale st.fs [] w then
    { fs := writeOuts st.fs w.outputs st.clock, clock := st.clock + 1,
      execs := st.execs + 1 }
  else st

/-- Modelled from the spec: a full engine run over the materialized
WorkItems in dependency (topological) order. -/
def runEngine (st : EngState) (ws : List WorkItem) : EngState :=
  ws.foldl stepItem st

/-- Graph well-formedness between an earlier item `a` and a later item `b`:
the later item's outputs never overlap the earlier one's outputs
(exclusive outputs) or inputs (producers precede consumers). -/
def DisjointFrom (a b : WorkItem) : Prop :=
  ∀ p ∈ b.outputs, p ∉ a.outputs ∧ p ∉ a.inputs

/-- Every modification time on disk lies strictly in the past of the
engine clock. -/
def ClockBound (st : EngState) : Prop :=
  ∀ p t, st.fs p = some t → t < st.clock

/-- A concrete two-level pipeline for the idempotence witness: mapping
produces `m.bam` from `a.fq`, dedup produces `d.bam` from `m.bam`. -/
def c2ws : List WorkItem :=
  [{ inputs := ["a.fq"], outputs := ["m.bam"] },
   { inputs := ["m.bam"], outputs := ["d.bam"] }]

/-- Initial state for the witness: only the raw input `a.fq` exists. -/
def c2st : EngState :=
  { fs := fun p => if p = "a.fq" then some 0 else none, clock := 1, execs := 0 }

/-! ## Lemmas and claim theorems -/

lemma olderThan_iff (a b : Option Nat) :
    olderThan a b = true ↔ ∃ tOut tIn, a = some tOut ∧ b = some tIn ∧ tOut < tIn := by
  cases a <;> cases b <;> simp [olderThan]

lemma badUpstream_iff (s : LState) :
    badUpstream s = true ↔ s = LState.stale ∨ s = LState.running := by
  cases s <;> simp [badUpstream]

/-- C1: `isStale` holds iff an output is absent, or an output's timestamp is
strictly older than an input's, or an upstream item is stale/running; and in
particular when every output is present with a timestamp at least every
input's (ties included) and no upstream item is stale/running, the item is
not stale.  `isStale` is a pure function of the filesystem snapshot `fs`
(it returns a `Bool` and cannot mutate `fs`). -/
theorem isStale_characterization (fs : String → Option Nat) (up : List LState) (w : WorkItem) :
    (isStale fs up w = true ↔
      ((∃ o ∈ w.outputs, fs o = none) ∨
       (∃ o ∈ w.outputs, ∃ i ∈ w.inputs,
          ∃ tOut tIn, fs o = some tOut ∧ fs i = some tIn ∧ tOut < tIn) ∨
       (∃ s ∈ up, s = LState.stale ∨ s = LState.running))) ∧
    ((∀ o ∈ w.outputs, ∃ t, fs o = some t) →
     (∀ o ∈ w.outputs, ∀ i ∈ w.inputs, ∀ tOut tIn,
        fs o = some tOut → fs i = some tIn → tIn ≤ tOut) →
     (∀ s ∈ up, s ≠ LState.stale ∧ s ≠ LState.running) →
     isStale fs up w = false) := by
  constructor
  · simp only [isStale, Bool.or_eq_true, List.any_eq_true, olderThan_iff,
      badUpstream_iff, Option.isNone_iff_eq_none]
    exact or_assoc
  · intro hpres htie hup
    rw [← Bool.not_eq_true]
    simp only [isStale, Bool.or_eq_true, List.any_eq_true, olderThan_iff,
      badUpstream_iff, Option.isNone_iff_eq_none]
    push_neg
    refine ⟨⟨?_, ?_⟩, ?_⟩
    · intro o ho
      rcases hpres o ho with ⟨t, ht⟩
      simp [ht]
    · intro o ho i hi
      rintro tOut tIn hOut hIn
      have := htie o ho i hi tOut tIn hOut hIn
      omega
    · intro s hs
      exact hup s hs

/-- Witness for C1: a WorkItem whose single output carries the same
timestamp as its single input (a tie) and has no bad upstream is not stale. -/
theorem isStale_characterization_witness :
    isStale (fun p => if p = "out.bam" then some 5 else if p = "in.fq" then some 5 else none)
      [LState.done] ⟨["in.fq"], ["out.bam"]⟩ = false :=
  (isStale_characterization
      (fun p => if p = "out.bam" then some 5 else if p = "in.fq" then some 5 else none)
      [LState.done] ⟨["in.fq"], ["out.bam"]⟩).2
    (by intro o ho; simp at ho; subst ho; exact ⟨5, by simp⟩)
    (by
      intro o ho i hi tOut tIn hOut hIn
      simp at ho hi
      subst ho; subst hi
      simp at hOut hIn
      omega)
    (by intro s hs; simp at hs; subst hs; simp)

/-- C9: `run_mapping` raises `ValueError` for every mapper other than
"bowtie", including "star": the guard of the STAR branch compares the list
literal `["mapper"]` with the string `"star"` and is false for all inputs,
so the STAR branch is unreachable. -/
theorem run_mapping_star_unreachable :
    (∀ mapper : String, mapper ≠ "bowtie" → run_mapping mapper = MapAction.valueError mapper) ∧
    run_mapping "star" = MapAction.valueError "star" ∧
    pyEq (PyVal.plist ["mapper"]) (PyVal.pstr "star") = false ∧
    (∀ mapper : String, run_mapping mapper ≠ MapAction.starStatement) := by
  have hguard : pyEq (PyVal.plist ["mapper"]) (PyVal.pstr "star") = false := rfl
  have hmain : ∀ mapper : String, mapper ≠ "bowtie" →
      run_mapping mapper = MapAction.valueError mapper := by
    intro mapper hm
    simp [run_mapping, pyEq, hm]
  refine ⟨hmain, hmain "star" (by decide), hguard, ?_⟩
  intro mapper
  by_cases hb : mapper = "bowtie"
  · subst hb; simp [run_mapping]
  · simp [hmain mapper hb]

/-- Witness for C9 at the concrete input "star". -/
theorem run_mapping_star_unreachable_witness :
    run_mapping "star" = MapAction.valueError "star" :=
  run_mapping_star_unreachable.1 "star" (by decide)

lemma hasR123_iff (l : List Char) :
    hasR123 l = true ↔
      ∃ pre d post, l = pre ++ 'R' :: d :: post ∧ (d = '1' ∨ d = '2' ∨ d = '3') := by
  induction l with
  | nil =>
    constructor
    · intro h
      simp [hasR123] at h
    · rintro ⟨pre, d, post, heq, -⟩
      exact absurd heq (by simp)
  | cons c rest ih =>
    simp only [hasR123, Bool.or_eq_true, Bool.and_eq_true, ih]
    constructor
    · rintro (⟨hc, hnext⟩ | ⟨pre, d, post, heq, hd⟩)
      · have hc2 : c = 'R' := by simpa using hc
        cases rest with
        | nil => simp [nextIs123] at hnext
        | cons d post =>
          refine ⟨[], d, post, by simp [hc2], ?_⟩
          have h3 : (d = '1' ∨ d = '2') ∨ d = '3' := by simpa [nextIs123] using hnext
          tauto
      · exact ⟨c :: pre, d, post, by simp [heq], hd⟩
    · rintro ⟨pre, d, post, heq, hd⟩
      cases pre with
      | nil =>
        simp only [List.nil_append, List.cons.injEq] at heq
        left
        refine ⟨by simp [heq.1], ?_⟩
        rw [heq.2]
        rcases hd with h | h | h <;> simp [nextIs123, h]
      | cons p pre2 =>
        simp only [List.cons_append, List.cons.injEq] at heq
        exact Or.inr ⟨pre2, d, post, heq.2, hd⟩

/-- C10: a collated input path is passed to the reproducibility command iff
it contains a substring matching `R[123]` (an 'R' immediately followed by
'1', '2' or '3'); every other input of the group is silently dropped. -/
theorem reproInputs_characterization (infiles : List (List Char)) (f : List Char) :
    f ∈ reproInputs infiles ↔
      f ∈ infiles ∧
        ∃ pre d post, f = pre ++ 'R' :: d :: post ∧ (d = '1' ∨ d = '2' ∨ d = '3') := by
  rw [reproInputs, List.mem_filter, hasR123_iff]

/-- Witness for C10: in a group holding replicates R1 and R4, the R1 path is
passed through (and, by `decide` on the filter itself, the R4 path is not). -/
theorem reproInputs_characterization_witness :
    (['a', '-', 'R', '1'] ∈ reproInputs [['a', '-', 'R', '1'], ['a', '-', 'R', '4']]) ∧
      reproInputs [['a', '-', 'R', '1'], ['a', '-', 'R', '4']] = [['a', '-', 'R', '1']] :=
  ⟨(reproInputs_characterization [['a', '-', 'R', '1'], ['a', '-', 'R', '4']]
      ['a', '-', 'R', '1']).2 ⟨by decide, ⟨['a', '-'], '1', [], rfl, Or.inl rfl⟩⟩,
   by decide⟩

lemma ne_self_append_bai (s : String) : s ≠ s ++ ".bai" := by
  intro h
  have hlen := congrArg String.length h
  rw [String.length_append] at hlen
  have h4 : (".bai" : String).length = 4 := rfl
  omega

/-- C7: for a merge task materialized with exactly one input, the merge
command is never executed (no shell effect is emitted) and after the clone
effects the declared output and its index are byte-identical to the input
and its index. -/
theorem mergeBamsByRep_single_input (i outfile : String)
    (fs : String → Option (List Nat))
    (shellSem : String → (String → Option (List Nat)) → (String → Option (List Nat)))
    (hne : outfile ≠ i ++ ".bai") :
    (∀ e ∈ mergeBamsByRep [i] outfile, ∀ cmd, e ≠ MergeEffect.shell cmd) ∧
    applyEffects shellSem fs (mergeBamsByRep [i] outfile) outfile = fs i ∧
    applyEffects shellSem fs (mergeBamsByRep [i] outfile) (outfile ++ ".bai")
      = fs (i ++ ".bai") := by
  have hdef : mergeBamsByRep [i] outfile =
      [MergeEffect.clone i outfile,
       MergeEffect.clone (i ++ ".bai") (outfile ++ ".bai")] := rfl
  refine ⟨?_, ?_, ?_⟩
  · rw [hdef]
    rintro e he cmd rfl
    simp at he
  · rw [hdef]
    have h1 : outfile ≠ outfile ++ ".bai" := ne_self_append_bai outfile
    simp [applyEffects, applyEffect, h1]
  · rw [hdef]
    have h2 : i ++ ".bai" ≠ outfile := fun h => hne h.symm
    simp [applyEffects, applyEffect, h2]

/-- Witness for C7 at concrete paths and a concrete filesystem. -/
theorem mergeBamsByRep_single_input_witness :
    ("b.bam" : String) ≠ "a.bam" ++ ".bai" ∧
    ((∀ e ∈ mergeBamsByRep ["a.bam"] "b.bam", ∀ cmd, e ≠ MergeEffect.shell cmd) ∧
     applyEffects (fun _ f => f)
       (fun p => if p = "a.bam" then some [7] else if p = "a.bam.bai" then some [9] else none)
       (mergeBamsByRep ["a.bam"] "b.bam") "b.bam"
       = (fun p => if p = "a.bam" then some [7] else if p = "a.bam.bai" then some [9] else none)
           "a.bam" ∧
     applyEffects (fun _ f => f)
       (fun p => if p = "a.bam" then some [7] else if p = "a.bam.bai" then some [9] else none)
       (mergeBamsByRep ["a.bam"] "b.bam") ("b.bam" ++ ".bai")
       = (fun p => if p = "a.bam" then some [7] else if p = "a.bam.bai" then some [9] else none)
           ("a.bam" ++ ".bai")) :=
  ⟨by decide,
   mergeBamsByRep_single_input "a.bam" "b.bam"
     (fun p => if p = "a.bam" then some [7] else if p = "a.bam.bai" then some [9] else none)
     (fun _ f => f) (by decide)⟩

lemma resolve_error_mem (fields config : String → Option String) :
    ∀ (tpl : List TItem) (t : String), resolve fields config tpl = Except.error t →
      t ∈ tokensOf tpl ∧ fields t = none ∧ config t = none := by
  intro tpl
  induction tpl with
  | nil => intro t h; simp [resolve] at h
  | cons it rest ih =>
    intro t h
    cases it with
    | lit s =>
      rw [resolve] at h
      cases hr : resolve fields config rest with
      | ok v => rw [hr] at h; simp [Except.map] at h
      | error e =>
        rw [hr] at h
        have hmap : (Except.error e : Except String String) = Except.error t := h
        have he : e = t := Except.error.inj hmap
        rcases ih e hr with ⟨h1, h2⟩
        rw [← he]
        exact ⟨by simp [tokensOf, h1], h2⟩
    | tok t0 =>
      rw [resolve] at h
      cases hl : lookupTok fields config t0 with
      | some v =>
        rw [hl] at h
        cases hr : resolve fields config rest with
        | ok v2 => rw [hr] at h; simp [Except.map] at h
        | error e =>
          rw [hr] at h
          have hmap : (Except.error e : Except String String) = Except.error t := h
          have he : e = t := Except.error.inj hmap
          rcases ih e hr with ⟨h1, h2⟩
          rw [← he]
          exact ⟨by simp [tokensOf, h1], h2⟩
      | none =>
        rw [hl] at h
        simp at h
        subst h
        rw [lookupTok] at hl
        cases hf : fields t0 with
        | some v => rw [hf] at hl; simp at hl
        | none =>
          rw [hf] at hl
          exact ⟨by simp [tokensOf], rfl, hl⟩

lemma resolve_all_present (fields config : String → Option String) :
    ∀ tpl : List TItem, (∀ t ∈ tokensOf tpl, lookupTok fields config t ≠ none) →
      resolve fields config tpl =
        Except.ok (renderWith (fun t => (lookupTok fields config t).getD "") tpl) := by
  intro tpl
  induction tpl with
  | nil => intro _; rfl
  | cons it rest ih =>
    intro hall
    cases it with
    | lit s =>
      have hr := ih (fun t ht => hall t (by simp [tokensOf, ht]))
      rw [resolve, hr]
      rfl
    | tok t0 =>
      have ht0 := hall t0 (by simp [tokensOf])
      cases hl : lookupTok fields config t0 with
      | none => exact absurd hl ht0
      | some v =>
        have hr := ih (fun t ht => hall t (by simp [tokensOf, ht]))
        rw [resolve, hl, hr]
        simp [Except.map, renderWith, hl]

lemma resolve_ok_tokens (fields config : String → Option String) :
    ∀ (tpl : List TItem) (s : String), resolve fields config tpl = Except.ok s →
      ∀ t ∈ tokensOf tpl, lookupTok fields config t ≠ none := by
  intro tpl
  induction tpl with
  | nil => intro s _ t ht; simp [tokensOf] at ht
  | cons it rest ih =>
    intro s h t ht
    cases it with
    | lit str =>
      rw [resolve] at h
      cases hr : resolve fields config rest with
      | error e => rw [hr] at h; simp [Except.map] at h
      | ok v =>
        simp [tokensOf] at ht
        exact ih v hr t ht
    | tok t0 =>
      rw [resolve] at h
      cases hl : lookupTok fields config t0 with
      | none => rw [hl] at h; simp at h
      | some v =>
        rw [hl] at h
        simp [tokensOf] at ht
        rcases ht with rfl | ht
        · simp [hl]
        · cases hr : resolve fields config rest with
          | error e => rw [hr] at h; simp [Except.map] at h
          | ok v2 => exact ih v2 hr t ht

/-- C8: `resolve` replaces every token with its value looked up first in the
captured fields and then in the configuration; a token missing from both
makes `resolve` fail with `UnresolvedParameterError` naming that token, in
which case no subprocess is spawned; and success never silently stands in
for a missing token (every token of a successfully resolved template was
resolvable). -/
theorem resolve_spec (fields config : String → Option String) (tpl : List TItem) :
    ((∀ t ∈ tokensOf tpl, lookupTok fields config t ≠ none) →
      resolve fields config tpl =
        Except.ok (renderWith (fun t => (lookupTok fields config t).getD "") tpl)) ∧
    (∀ t, resolve fields config tpl = Except.error t →
      t ∈ tokensOf tpl ∧ fields t = none ∧ config t = none) ∧
    (∀ t, resolve fields config tpl = Except.error t →
      (runStep fields config tpl).1 = []) ∧
    (∀ t v, fields t = some v → lookupTok fields config t = some v) ∧
    (∀ s, resolve fields config tpl = Except.ok s →
      ∀ t ∈ tokensOf tpl, fields t ≠ none ∨ config t ≠ none) := by
  refine ⟨resolve_all_present fields config tpl, resolve_error_mem fields config tpl,
    ?_, ?_, ?_⟩
  · intro t h
    simp [runStep, h]
  · intro t v hv
    simp [lookupTok, hv]
  · intro s hs t ht
    have := resolve_ok_tokens fields config tpl s hs t ht
    rw [lookupTok] at this
    cases hf : fields t with
    | some v => exact Or.inl (by simp [hf])
    | none => rw [hf] at this; exact Or.inr this

/-- Witness for C8: the extractUMI command template resolved against
concrete captured fields and configuration. -/
theorem resolve_spec_witness :
    resolve
      (fun t => if t = "outfile" then some "demux_fq/a.fastq.umi_trimmed.gz" else none)
      (fun t => if t = "reads_bc_pattern" then some "NNNXXXXNN" else none)
      [TItem.lit "umi_tools extract --bc-pattern=", TItem.tok "reads_bc_pattern",
       TItem.lit " -L ", TItem.tok "outfile", TItem.lit ".log"] =
      Except.ok (renderWith
        (fun t => (lookupTok
          (fun t2 => if t2 = "outfile" then some "demux_fq/a.fastq.umi_trimmed.gz" else none)
          (fun t2 => if t2 = "reads_bc_pattern" then some "NNNXXXXNN" else none) t).getD "")
        [TItem.lit "umi_tools extract --bc-pattern=", TItem.tok "reads_bc_pattern",
         TItem.lit " -L ", TItem.tok "outfile", TItem.lit ".log"]) :=
  (resolve_spec
      (fun t => if t = "outfile" then some "demux_fq/a.fastq.umi_trimmed.gz" else none)
      (fun t => if t = "reads_bc_pattern" then some "NNNXXXXNN" else none)
      [TItem.lit "umi_tools extract --bc-pattern=", TItem.tok "reads_bc_pattern",
       TItem.lit " -L ", TItem.tok "outfile", TItem.lit ".log"]).1 (by decide)

lemma runSteps_mem_bounds (succ : Nat → Bool) :
    ∀ m k i, JEvent.runStep i ∈ (runSteps succ k m).1 → k < i ∧ i ≤ k + m := by
  intro m
  induction m with
  | zero => intro k i h; simp [runSteps] at h
  | succ m ih =>
    intro k i h
    rw [runSteps] at h
    by_cases hs : succ (k + 1) = true
    · rw [if_pos hs] at h
      simp only [List.mem_cons] at h
      rcases h with h | h | h
      · have : i = k + 1 := (JEvent.runStep.inj h.symm).symm
        omega
      · exact absurd h (by simp)
      · have := ih (k + 1) i h
        omega
    · rw [if_neg hs] at h
      simp only [List.mem_cons, List.not_mem_nil, or_false] at h
      have : i = k + 1 := (JEvent.runStep.inj h.symm).symm
      omega

lemma runSteps_all_success (succ : Nat → Bool) :
    ∀ m k, (∀ i, k < i → i ≤ k + m → succ i = true) →
      stepsRun (runSteps succ k m).1 = List.range' (k + 1) m := by
  intro m
  induction m with
  | zero => intro k _; simp [runSteps, stepsRun, List.range']
  | succ m ih =>
    intro k hall
    have hs : succ (k + 1) = true := hall (k + 1) (by omega) (by omega)
    rw [runSteps, if_pos hs]
    have hrest := ih (k + 1) (fun i h1 h2 => hall i (by omega) (by omega))
    simp only [stepsRun, List.filterMap_cons] at hrest ⊢
    rw [hrest, List.range']

lemma runSteps_ledger_before (succ : Nat → Bool) :
    ∀ m k i l1 l2, (runSteps succ k m).1 = l1 ++ JEvent.runStep i :: l2 →
      k + 1 < i → JEvent.ledgerWrite (i - 1) ∈ l1 := by
  intro m
  induction m with
  | zero =>
    intro k i l1 l2 h hi
    have := congrArg List.length h
    simp [runSteps] at this
    omega
  | succ m ih =>
    intro k i l1 l2 h hi
    rw [runSteps] at h
    by_cases hs : succ (k + 1) = true
    · rw [if_pos hs] at h
      cases l1 with
      | nil =>
        simp only [List.nil_append] at h
        have : k + 1 = i := JEvent.runStep.inj (List.head_eq_of_cons_eq h)
        omega
      | cons a l1b =>
        rw [List.cons_append] at h
        injection h with h1 h2
        cases l1b with
        | nil =>
          simp only [List.nil_append] at h2
          exact absurd (List.head_eq_of_cons_eq h2) (by simp)
        | cons b l1c =>
          rw [List.cons_append] at h2
          injection h2 with h3 h4
          by_cases hik : i = k + 2
          · subst hik
            have : JEvent.ledgerWrite (k + 2 - 1) = b := by
              rw [← h3]
              congr 1
            rw [← this]
            simp
          · have hmem := ih (k + 1) i l1c l2 h4 (by omega)
            exact List.mem_cons_of_mem _ (List.mem_cons_of_mem _ hmem)
    · rw [if_neg hs] at h
      cases l1 with
      | nil =>
        simp only [List.nil_append] at h
        have : k + 1 = i := JEvent.runStep.inj (List.head_eq_of_cons_eq h)
        omega
      | cons a l1b =>
        rw [List.cons_append] at h
        injection h with h1 h2
        have := congrArg List.length h2
        simp at this
        omega

/-- C3: rerunning a WorkItem whose CheckpointLedger records steps `1..k`
complete executes only steps `> k` (and `≤ n`); when all remaining steps
succeed it executes exactly steps `k+1 .. n` in order; every step after the
first resumed one is preceded in the trace by the ledger record of its
predecessor (the ledger is updated before the next step starts); and for a
3-step WorkItem with steps 1 and 2 recorded complete, a rerun executes only
step 3, whatever step 3's outcome. -/
theorem checkpoint_resumption (succ : Nat → Bool) (n k : Nat) (hk : k ≤ n) :
    (∀ i, JEvent.runStep i ∈ (runJob succ n k).1 → k < i ∧ i ≤ n) ∧
    ((∀ i, k < i → i ≤ n → succ i = true) →
      stepsRun (runJob succ n k).1 = List.range' (k + 1) (n - k)) ∧
    (∀ i l1 l2, (runJob succ n k).1 = l1 ++ JEvent.runStep i :: l2 →
      k + 1 < i → JEvent.ledgerWrite (i - 1) ∈ l1) ∧
    stepsRun (runJob succ 3 2).1 = [3] := by
  refine ⟨?_, ?_, ?_, ?_⟩
  · intro i h
    have := runSteps_mem_bounds succ (n - k) k i h
    omega
  · intro hall
    exact runSteps_all_success succ (n - k) k (fun i h1 h2 => hall i h1 (by omega))
  · intro i l1 l2 h hi
    exact runSteps_ledger_before succ (n - k) k i l1 l2 h hi
  · by_cases hs : succ 3 = true <;>
      simp [runJob, runSteps, stepsRun, hs]

/-- Witness for C3: a ledger at step 2 of a 3-step job, with step 3 failing
again on the rerun (`succ i` is `i ≤ 2`): only step 3 is executed. -/
theorem checkpoint_resumption_witness :
    stepsRun (runJob (fun i => decide (i ≤ 2)) 3 2).1 = [3] :=
  (checkpoint_resumption (fun i => decide (i ≤ 2)) 3 2 (by decide)).2.2.2

/-- C4: in every reachable scheduler state, no two running WorkItems name
the same SerializationGroup — regardless of the global concurrency limit,
and while WorkItems with no or different groups run in parallel in the same
state. -/
theorem serialization_exclusion (limit : Nat) (running : List SWorkItem)
    (h : SchedReach limit running) :
    running.Pairwise (fun v w => ¬ sharesGroup v w) := by
  induction h with
  | idle => exact List.Pairwise.nil
  | step s t hs hstep ih =>
    cases hstep with
    | start w s0 hcan =>
      refine List.Pairwise.cons ?_ ih
      rintro v hv ⟨g, hwg, hvg⟩
      rw [canStart] at hcan
      rcases (Bool.and_eq_true _ _).mp hcan with ⟨-, hgrp⟩
      rw [hwg] at hgrp
      have := List.all_eq_true.mp hgrp v hv
      exact (of_decide_eq_true this) hvg
    | finish w r1 r2 =>
      exact ih.sublist
        (List.Sublist.append (List.Sublist.refl r1) (List.sublist_cons_self w r2))

/-- Witness for C4: with limit 2, the state reached by starting the
"db"-group item and then an unrelated ungrouped item (both running
concurrently) satisfies the exclusion invariant. -/
theorem serialization_exclusion_witness :
    List.Pairwise (fun v w => ¬ sharesGroup v w)
      [SWorkItem.mk 2 none, SWorkItem.mk 1 (some "db")] :=
  serialization_exclusion 2 [SWorkItem.mk 2 none, SWorkItem.mk 1 (some "db")]
    (SchedReach.step _ _
      (SchedReach.step _ _ SchedReach.idle
        (SchedStep.start (SWorkItem.mk 1 (some "db")) [] (by decide)))
      (SchedStep.start (SWorkItem.mk 2 none) [SWorkItem.mk 1 (some "db")] (by decide)))

lemma anyCongr {α : Type} (l : List α) (f g : α → Bool)
    (h : ∀ x ∈ l, f x = g x) : l.any f = l.any g := by
  induction l with
  | nil => rfl
  | cons a t ih =>
    simp only [List.any_cons]
    rw [h a (by simp), ih (fun x hx => h x (by simp [hx]))]

lemma failedF_congr (deps : Nat → List Nat) (exec : Nat → Bool)
    (hdeps : ∀ j, ∀ d ∈ deps j, d < j) :
    ∀ f1 f2 j, j < f1 → j < f2 →
      failedF deps exec f1 j = failedF deps exec f2 j := by
  intro f1
  induction f1 with
  | zero => intro f2 j h1; omega
  | succ a ih =>
    intro f2 j h1 h2
    cases f2 with
    | zero => omega
    | succ b =>
      rw [failedF, failedF]
      have : ∀ d ∈ deps j, failedF deps exec a d = failedF deps exec b d := by
        intro d hd
        have hdj := hdeps j d hd
        exact ih b d (by omega) (by omega)
      rw [anyCongr _ _ _ this]

lemma failedItem_unfold (deps : Nat → List Nat) (exec : Nat → Bool)
    (hdeps : ∀ j, ∀ d ∈ deps j, d < j) (j : Nat) :
    failedItem deps exec j =
      ((deps j).any (fun d => failedItem deps exec d) || !exec j) := by
  rw [failedItem, failedF]
  have : ∀ d ∈ deps j, failedF deps exec j d = failedItem deps exec d := by
    intro d hd
    have hdj := hdeps j d hd
    exact failedF_congr deps exec hdeps j (d + 1) d (by omega) (by omega)
  rw [anyCongr _ _ _ this]

lemma failed_propagates (deps : Nat → List Nat) (exec : Nat → Bool)
    (hdeps : ∀ j, ∀ d ∈ deps j, d < j) :
    ∀ i j, Reaches deps i j → failedItem deps exec i = true →
      failedItem deps exec j = true ∧ executedItem deps exec j = false := by
  intro i j h
  induction h with
  | @dep j hd =>
    intro hf
    have hany : (deps j).any (fun x => failedItem deps exec x) = true :=
      List.any_eq_true.mpr ⟨i, hd, hf⟩
    constructor
    · rw [failedItem_unfold deps exec hdeps j, hany, Bool.true_or]
    · rw [executedItem, hany]
      rfl
  | @trans d j hr hd ih =>
    intro hf
    have hfd := (ih hf).1
    have hany : (deps j).any (fun x => failedItem deps exec x) = true :=
      List.any_eq_true.mpr ⟨d, hd, hfd⟩
    constructor
    · rw [failedItem_unfold deps exec hdeps j, hany, Bool.true_or]
    · rw [executedItem, hany]
      rfl

lemma clean_branch_succeeds (deps : Nat → List Nat) (exec : Nat → Bool)
    (hdeps : ∀ j, ∀ d ∈ deps j, d < j) :
    ∀ j, (∀ i, Reaches deps i j → exec i = true) → exec j = true →
      failedItem deps exec j = false := by
  intro j
  induction j using Nat.strong_induction_on with
  | _ j ih =>
    intro hanc hj
    rw [failedItem_unfold deps exec hdeps j, hj]
    simp only [Bool.not_true, Bool.or_false]
    rw [List.any_eq_false]
    intro d hd
    have hfd := ih d (hdeps j d hd)
      (fun i hi => hanc i (Reaches.trans hi hd))
      (hanc d (Reaches.dep hd))
    simp [hfd]

/-- C5: if a WorkItem fails, every WorkItem transitively dependent on it is
marked failed and never executed; and every WorkItem whose own command and
whose whole ancestry succeed completes (is not failed) — sibling branches
are unaffected by a failure elsewhere. -/
theorem failure_isolation (deps : Nat → List Nat) (exec : Nat → Bool)
    (hdeps : ∀ j, ∀ d ∈ deps j, d < j) :
    (∀ i j, Reaches deps i j → failedItem deps exec i = true →
      failedItem deps exec j = true ∧ executedItem deps exec j = false) ∧
    (∀ j, (∀ i, Reaches deps i j → exec i = true) → exec j = true →
      failedItem deps exec j = false) :=
  ⟨failed_propagates deps exec hdeps, clean_branch_succeeds deps exec hdeps⟩

lemma c5_reaches_shape : ∀ i j, Reaches c5deps i j → i = 0 ∧ (j = 1 ∨ j = 2) := by
  intro i j h
  induction h with
  | @dep j hd =>
    by_cases h1 : j = 1
    · subst h1; simp [c5deps] at hd; exact ⟨hd, Or.inl rfl⟩
    · by_cases h2 : j = 2
      · subst h2; simp [c5deps] at hd; exact ⟨hd, Or.inr rfl⟩
      · simp [c5deps, h1, h2] at hd
  | @trans d j hr hd ih =>
    rcases ih with ⟨-, hd12⟩
    by_cases h1 : j = 1
    · subst h1
      simp [c5deps] at hd
      omega
    · by_cases h2 : j = 2
      · subst h2
        simp [c5deps] at hd
        omega
      · simp [c5deps, h1, h2] at hd

/-- Witness for C5: in the A → B, A → C graph where the WorkItem on B's
branch fails, C's WorkItem still completes (and B's is failed). -/
theorem failure_isolation_witness :
    failedItem c5deps c5exec 2 = false ∧ failedItem c5deps c5exec 1 = true :=
  ⟨(failure_isolation c5deps c5exec (by
      intro j d hd
      by_cases h1 : j = 1
      · subst h1; simp [c5deps] at hd; omega
      · by_cases h2 : j = 2
        · subst h2; simp [c5deps] at hd; omega
        · simp [c5deps, h1, h2] at hd)).2 2
    (by
      intro i hi
      have := c5_reaches_shape i 2 hi
      have hz : i = 0 := this.1
      subst hz
      decide)
    (by decide),
   by decide⟩

lemma isStale_agree (fs1 fs2 : String → Option Nat) (up : List LState) (w : WorkItem)
    (hin : ∀ p ∈ w.inputs, fs1 p = fs2 p) (hout : ∀ p ∈ w.outputs, fs1 p = fs2 p) :
    isStale fs1 up w = isStale fs2 up w := by
  rw [isStale, isStale]
  have h1 : w.outputs.any (fun o => (fs1 o).isNone)
      = w.outputs.any (fun o => (fs2 o).isNone) :=
    anyCongr _ _ _ (fun o ho => by rw [hout o ho])
  have h2 : (w.outputs.any fun o => w.inputs.any fun i => olderThan (fs1 o) (fs1 i))
      = w.outputs.any fun o => w.inputs.any fun i => olderThan (fs2 o) (fs2 i) :=
    anyCongr _ _ _ (fun o ho =>
      anyCongr _ _ _ (fun i hi => by rw [hout o ho, hin i hi]))
  rw [h1, h2]

/-- C6: re-globbing the declared output pattern over the files the
predecessor produced yields exactly one downstream WorkItem per matching
file (exactly N items when N files match, nothing else), and each such
WorkItem's freshness check depends only on the filesystem state at that
item's own input and output paths (each is independently subject to
freshness checks). -/
theorem subdivide_fanout (pat : GlobPat) (produced : List (List Char))
    (mkIn mkOut : List Char → String) :
    (materializeSubdivide pat produced mkIn mkOut).length
        = (produced.filter (fun f => globMatch pat f)).length ∧
    (∀ w ∈ materializeSubdivide pat produced mkIn mkOut,
        ∃ f ∈ produced, globMatch pat f = true ∧
          w = { inputs := [mkIn f], outputs := [mkOut f] }) ∧
    (∀ f ∈ produced, globMatch pat f = true →
        ({ inputs := [mkIn f], outputs := [mkOut f] } : WorkItem)
          ∈ materializeSubdivide pat produced mkIn mkOut) ∧
    (∀ (fs1 fs2 : String → Option Nat) (up : List LState) (w : WorkItem),
        w ∈ materializeSubdivide pat produced mkIn mkOut →
        (∀ p ∈ w.inputs, fs1 p = fs2 p) → (∀ p ∈ w.outputs, fs1 p = fs2 p) →
        isStale fs1 up w = isStale fs2 up w) := by
  refine ⟨List.length_map _ _, ?_, ?_, ?_⟩
  · intro w hw
    rcases List.mem_map.mp hw with ⟨f, hf, rfl⟩
    rcases List.mem_filter.mp hf with ⟨hfp, hfm⟩
    exact ⟨f, hfp, hfm, rfl⟩
  · intro f hf hm
    exact List.mem_map.mpr ⟨f, List.mem_filter.mpr ⟨hf, hm⟩, rfl⟩
  · intro fs1 fs2 up w hw hin hout
    exact isStale_agree fs1 fs2 up w hin hout

/-- Witness for C6: the pattern `p*s` globbed over the produced files
`pas` and `q` materializes the WorkItem for `pas` (and only that one). -/
theorem subdivide_fanout_witness :
    ({ inputs := [String.mk ['p', 'a', 's']], outputs := [String.mk ['p', 'a', 's']] }
        : WorkItem)
      ∈ materializeSubdivide ⟨['p'], ['s']⟩ [['p', 'a', 's'], ['q']] String.mk String.mk :=
  (subdivide_fanout ⟨['p'], ['s']⟩ [['p', 'a', 's'], ['q']] String.mk String.mk).2.2.1
    ['p', 'a', 's'] (by decide) (by decide)

lemma stepItem_clock (st : EngState) (w : WorkItem) (h : ClockBound st) :
    ClockBound (stepItem st w) := by
  intro p t
  by_cases hs : isStale st.fs [] w = true
  · simp only [stepItem, if_pos hs, writeOuts]
    intro hp
    by_cases hpo : p ∈ w.outputs
    · rw [if_pos hpo] at hp
      injection hp with hq
      omega
    · rw [if_neg hpo] at hp
      have := h p t hp
      omega
  · simp only [stepItem, if_neg hs]
    exact h p t

lemma runEngine_clock (ws : List WorkItem) :
    ∀ st, ClockBound st → ClockBound (runEngine st ws) := by
  induction ws with
  | nil => intro st h; exact h
  | cons w rest ih =>
    intro st h
    rw [runEngine, List.foldl_cons]
    exact ih (stepItem st w) (stepItem_clock st w h)

lemma runEngine_untouched (ws : List WorkItem) :
    ∀ (st : EngState) (p : String), (∀ v ∈ ws, p ∉ v.outputs) →
      (runEngine st ws).fs p = st.fs p := by
  induction ws with
  | nil => intro st p _; rfl
  | cons w rest ih =>
    intro st p h
    rw [runEngine, List.foldl_cons]
    have hstep : (stepItem st w).fs p = st.fs p := by
      by_cases hs : isStale st.fs [] w = true
      · simp [stepItem, hs, writeOuts, h w (by simp)]
      · simp [stepItem, hs]
    rw [show (List.foldl stepItem (stepItem st w) rest) = runEngine (stepItem st w) rest from rfl]
    rw [ih (stepItem st w) p (fun v hv => h v (by simp [hv])), hstep]

lemma fresh_after_step (st : EngState) (w : WorkItem) (hclk : ClockBound st) :
    isStale (stepItem st w).fs [] w = false := by
  by_cases hs : isStale st.fs [] w = true
  · simp only [stepItem, if_pos hs]
    rw [isStale]
    have h1 : (w.outputs.any fun o =>
        ((writeOuts st.fs w.outputs st.clock) o).isNone) = false := by
      rw [List.any_eq_false]
      intro o ho
      simp [writeOuts, ho]
    have h2 : (w.outputs.any fun o => w.inputs.any fun i =>
        olderThan ((writeOuts st.fs w.outputs st.clock) o)
          ((writeOuts st.fs w.outputs st.clock) i)) = false := by
      rw [List.any_eq_false]
      intro o ho
      rw [Bool.not_eq_true, List.any_eq_false]
      intro i hi
      rw [Bool.not_eq_true]
      by_cases hio : i ∈ w.outputs
      · simp [writeOuts, ho, hio, olderThan]
      · simp only [writeOuts, if_pos ho, if_neg hio]
        cases hfi : st.fs i with
        | none => simp [olderThan]
        | some ti =>
          have := hclk i ti hfi
          simp only [olderThan, decide_eq_false_iff_not]
          omega
    rw [h1, h2]
    rfl
  · rw [Bool.not_eq_true] at hs
    simp only [stepItem, hs, if_neg (by simp [hs] : ¬ isStale st.fs [] w = true)]
    exact hs

lemma run_all_fresh (ws : List WorkItem) :
    ∀ st, ClockBound st → List.Pairwise DisjointFrom ws →
      ∀ w ∈ ws, isStale (runEngine st ws).fs [] w = false := by
  induction ws with
  | nil => intro st _ _ w hw; simp at hw
  | cons w rest ih =>
    intro st hclk hpair v hv
    rw [runEngine, List.foldl_cons]
    rw [show (List.foldl stepItem (stepItem st w) rest) = runEngine (stepItem st w) rest from rfl]
    rcases List.pairwise_cons.mp hpair with ⟨hw, hrest⟩
    rcases List.mem_cons.mp hv with rfl | hv2
    · have hfresh1 : isStale (stepItem st v).fs [] v = false :=
        fresh_after_step st v hclk
      have hagree : ∀ p, p ∈ v.inputs ∨ p ∈ v.outputs →
          (runEngine (stepItem st v) rest).fs p = (stepItem st v).fs p := by
        intro p hp
        apply runEngine_untouched
        intro u hu hpu
        rcases hw u hu p hpu with ⟨hno, hni⟩
        rcases hp with hp | hp
        · exact hni hp
        · exact hno hp
      rw [isStale_agree (runEngine (stepItem st v) rest).fs (stepItem st v).fs [] v
        (fun p hp => hagree p (Or.inl hp)) (fun p hp => hagree p (Or.inr hp))]
      exact hfresh1
    · exact ih (stepItem st w) (stepItem_clock st w hclk) hrest v hv2

lemma run_skip (ws : List WorkItem) :
    ∀ st, (∀ w ∈ ws, isStale st.fs [] w = false) → runEngine st ws = st := by
  induction ws with
  | nil => intro st _; rfl
  | cons w rest ih =>
    intro st h
    have hw : stepItem st w = st := by
      simp [stepItem, h w (by simp)]
    rw [runEngine, List.foldl_cons, hw]
    exact ih st (fun v hv => h v (by simp [hv]))

/-- C2: after a complete engine run, every WorkItem is fresh, so a second
run over the same items with no filesystem change in between skips every
WorkItem (the state is untouched) and executes zero WorkItems.  Requires
the run's well-formedness: timestamps on disk precede the clock, and the
items are topologically ordered with exclusive outputs. -/
theorem engine_idempotent (st : EngState) (ws : List WorkItem)
    (hclk : ClockBound st) (hpair : List.Pairwise DisjointFrom ws) :
    (∀ w ∈ ws, isStale (runEngine st ws).fs [] w = false) ∧
    runEngine { fs := (runEngine st ws).fs, clock := (runEngine st ws).clock,
                execs := 0 } ws
      = { fs := (runEngine st ws).fs, clock := (runEngine st ws).clock,
          execs := 0 } ∧
    (runEngine { fs := (runEngine st ws).fs, clock := (runEngine st ws).clock,
                 execs := 0 } ws).execs = 0 := by
  have hfresh := run_all_fresh ws st hclk hpair
  have hskip : runEngine ⟨(runEngine st ws).fs, (runEngine st ws).clock, 0⟩ ws
      = (⟨(runEngine st ws).fs, (runEngine st ws).clock, 0⟩ : EngState) :=
    run_skip ws _ (fun w hw => hfresh w hw)
  exact ⟨hfresh, hskip, by rw [hskip]⟩

/-- Witness for C2: the two-level mapping/dedup pipeline starting from a
filesystem holding only `a.fq` executes zero WorkItems on its second run. -/
theorem engine_idempotent_witness :
    (runEngine { fs := (runEngine c2st c2ws).fs, clock := (runEngine c2st c2ws).clock,
                 execs := 0 } c2ws).execs = 0 :=
  (engine_idempotent c2st c2ws
    (by
      intro p t h
      by_cases hp : p = "a.fq"
      · simp [c2st, hp] at h
        simp [c2st]
        omega
      · simp [c2st, hp] at h)
    (by
      refine List.Pairwise.cons (fun v hv => ?_) (List.Pairwise.cons (fun v hv => ?_)
        List.Pairwise.nil)
      · simp only [c2ws, List.mem_singleton] at hv
        subst hv
        intro p hp
        simp only [List.mem_singleton] at hp
        subst hp
        exact ⟨by decide, by decide⟩
      · simp only [c2ws, List.not_mem_nil] at hv)).2.2



end WorkflowEngine
